import Mathlib

/-!
Verification of the credential-engine and admin password-resolution logic of
the analytics-hub backend (`src/backend/src/utils/crypto.js` and
`src/backend/src/routes/admin.js`), as a shallow embedding in Lean 4.

Bytes are modelled as `Nat` values below 256, byte strings as `List Nat`.
JavaScript strings are modelled as Lean `String`; `null`/`undefined` results
are modelled with `Option`, thrown exceptions with `Except`.
-/

deriving instance DecidableEq for Except

namespace AnalyticsHub

/-! ### JavaScript truthiness helpers

`truthy o` is the value of `o` when it is a truthy JS string (non-empty),
`none` otherwise; `jsFalsy` is the boolean `!x` on a string-or-null value. -/

def truthy (o : Option String) : Option String :=
  match o with
  | none => none
  | some s => if s = "" then none else some s

def jsFalsy (o : Option String) : Bool :=
  match o with
  | none => true
  | some s => s == ""

/-! ### Splitting a character list on a separator

Models JavaScript `String.prototype.split(sep)` (single-character separator)
together with `Array.prototype.join(sep)`. -/

def splitOnChar (c : Char) : List Char → List (List Char)
  | [] => [[]]
  | x :: xs =>
    match splitOnChar c xs with
    | [] => [[]]
    | h :: t => if x = c then [] :: h :: t else (x :: h) :: t

def joinSep (c : Char) : List (List Char) → List Char
  | [] => []
  | [x] => x
  | x :: y :: t => x ++ c :: joinSep c (y :: t)

/-! ### Hex encoding and decoding

`hexEncode` models `Buffer.prototype.toString('hex')`; `hexDecodeChars`
models Node's lenient `Buffer.from(str, 'hex')`, which stops at the first
character pair that is not two hex digits and drops a trailing lone digit. -/

def hexDigit (k : Nat) : Char :=
  match k with
  | 0 => '0' | 1 => '1' | 2 => '2' | 3 => '3' | 4 => '4'
  | 5 => '5' | 6 => '6' | 7 => '7' | 8 => '8' | 9 => '9'
  | 10 => 'a' | 11 => 'b' | 12 => 'c' | 13 => 'd' | 14 => 'e'
  | _ => 'f'

def hexByte (n : Nat) : List Char := [hexDigit (n / 16), hexDigit (n % 16)]

def hexEncodeChars (bs : List Nat) : List Char := bs.flatMap hexByte

def hexEncode (bs : List Nat) : String := String.mk (hexEncodeChars bs)

def hexVal (c : Char) : Option Nat :=
  if '0' ≤ c ∧ c ≤ '9' then some (c.toNat - 48)
  else if 'a' ≤ c ∧ c ≤ 'f' then some (c.toNat - 97 + 10)
  else if 'A' ≤ c ∧ c ≤ 'F' then some (c.toNat - 65 + 10)
  else none

def hexDecodeChars : List Char → List Nat
  | c1 :: c2 :: rest =>
    match hexVal c1, hexVal c2 with
    | some a, some b => (a * 16 + b) :: hexDecodeChars rest
    | _, _ => []
  | _ => []

/-! ### UTF-8 encoding and lossy decoding

Models Node's `'utf8'` string-to-bytes conversion and its lossy inverse
(invalid sequences become U+FFFD, never a thrown error). -/

def utf8EncodeChar (c : Char) : List Nat :=
  if c.toNat < 128 then [c.toNat]
  else if c.toNat < 2048 then [192 + c.toNat / 64, 128 + c.toNat % 64]
  else if c.toNat < 65536 then
    [224 + c.toNat / 4096, 128 + c.toNat / 64 % 64, 128 + c.toNat % 64]
  else
    [240 + c.toNat / 262144, 128 + c.toNat / 4096 % 64, 128 + c.toNat / 64 % 64,
     128 + c.toNat % 64]

def utf8Encode (s : String) : List Nat := s.data.flatMap utf8EncodeChar

def utf8Step (b0 : Nat) (bs : List Nat) : Char × Nat :=
  if b0 < 128 then (Char.ofNat b0, 1)
  else if b0 < 192 then ('�', 1)
  else if b0 < 224 then
    match bs with
    | b1 :: _ =>
      if 128 ≤ b1 ∧ b1 < 192 then (Char.ofNat ((b0 - 192) * 64 + (b1 - 128)), 2)
      else ('�', 1)
    | [] => ('�', 1)
  else if b0 < 240 then
    match bs with
    | b1 :: b2 :: _ =>
      if (128 ≤ b1 ∧ b1 < 192) ∧ (128 ≤ b2 ∧ b2 < 192) then
        (Char.ofNat ((b0 - 224) * 4096 + (b1 - 128) * 64 + (b2 - 128)), 3)
      else ('�', 1)
    | _ => ('�', 1)
  else if b0 < 248 then
    match bs with
    | b1 :: b2 :: b3 :: _ =>
      if (128 ≤ b1 ∧ b1 < 192) ∧ (128 ≤ b2 ∧ b2 < 192) ∧ (128 ≤ b3 ∧ b3 < 192) then
        (Char.ofNat ((b0 - 240) * 262144 + (b1 - 128) * 4096 + (b2 - 128) * 64 + (b3 - 128)), 4)
      else ('�', 1)
    | _ => ('�', 1)
  else ('�', 1)

def utf8DecodeLossyAux : Nat → List Nat → List Char
  | _, [] => []
  | 0, _ :: _ => []
  | fuel + 1, b0 :: bs =>
    (utf8Step b0 bs).1 :: utf8DecodeLossyAux fuel (bs.drop ((utf8Step b0 bs).2 - 1))

def utf8DecodeLossy (l : List Nat) : List Char := utf8DecodeLossyAux l.length l

theorem utf8DecodeLossyAux_congr : ∀ (fuel : Nat) (l : List Nat), l.length ≤ fuel →
    utf8DecodeLossyAux fuel l = utf8DecodeLossy l
  | fuel, [], _ => by cases fuel <;> rfl
  | 0, b0 :: bs, h => by simp at h
  | fuel + 1, b0 :: bs, h => by
    show _ = utf8DecodeLossyAux (bs.length + 1) (b0 :: bs)
    rw [utf8DecodeLossyAux, utf8DecodeLossyAux]
    have hd : (bs.drop ((utf8Step b0 bs).2 - 1)).length ≤ bs.length := by
      simp only [List.length_drop]; omega
    have h1 := utf8DecodeLossyAux_congr fuel (bs.drop ((utf8Step b0 bs).2 - 1))
      (le_trans hd (by simp only [List.length_cons] at h; omega))
    have h2 := utf8DecodeLossyAux_congr bs.length (bs.drop ((utf8Step b0 bs).2 - 1)) hd
    rw [h1, h2]
termination_by _ l _ => l.length
decreasing_by
  all_goals simp only [List.length_cons, List.length_drop]
  all_goals omega

/-! ### Chunking a list into fixed-size blocks -/

def listChunksAux (k : Nat) : Nat → List α → List (List α)
  | _, [] => []
  | 0, _ :: _ => []
  | fuel + 1, a :: rest => (a :: rest.take (k - 1)) :: listChunksAux k fuel (rest.drop (k - 1))

def listChunks (k : Nat) (l : List α) : List (List α) := listChunksAux k l.length l

theorem listChunksAux_congr (k : Nat) : ∀ (fuel : Nat) (l : List α), l.length ≤ fuel →
    listChunksAux k fuel l = listChunks k l
  | fuel, [], _ => by cases fuel <;> rfl
  | 0, a :: rest, h => by simp at h
  | fuel + 1, a :: rest, h => by
    show _ = listChunksAux k (rest.length + 1) (a :: rest)
    rw [listChunksAux, listChunksAux]
    have hd : (rest.drop (k - 1)).length ≤ rest.length := by
      simp only [List.length_drop]; omega
    have h1 := listChunksAux_congr k fuel (rest.drop (k - 1))
      (le_trans hd (by simp only [List.length_cons] at h; omega))
    have h2 := listChunksAux_congr k rest.length (rest.drop (k - 1)) hd
    rw [h1, h2]
termination_by _ l _ => l.length
decreasing_by
  all_goals simp only [List.length_cons, List.length_drop]
  all_goals omega

theorem listChunks_nil (k : Nat) : listChunks k ([] : List α) = [] := rfl

theorem listChunks_cons (k : Nat) (a : α) (rest : List α) :
    listChunks k (a :: rest)
      = (a :: rest.take (k - 1)) :: listChunks k (rest.drop (k - 1)) := by
  show listChunksAux k (rest.length + 1) (a :: rest) = _
  rw [listChunksAux]
  rw [listChunksAux_congr k rest.length (rest.drop (k - 1))
    (by simp only [List.length_drop]; omega)]

/-! ### Base64

`base64Encode` models `Buffer.prototype.toString('base64')` (RFC 4648 with
padding).  `base64DecodeNode` models Node's lenient `Buffer.from(s, 'base64')`:
characters outside the (standard or URL-safe) alphabet are ignored, the
remaining sextets are concatenated and any leftover bits that do not fill a
whole byte are dropped. -/

def b64Digit (k : Nat) : Char :=
  ("ABCDEFGHIJKLMNOPQRSTUVWXYZabcdefghijklmnopqrstuvwxyz0123456789+/".data).getD k 'A'

def b64EncGroup (g : List Nat) : List Char :=
  match g with
  | [a, b, c] =>
    [b64Digit (a / 4), b64Digit (a % 4 * 16 + b / 16), b64Digit (b % 16 * 4 + c / 64),
     b64Digit (c % 64)]
  | [a, b] =>
    [b64Digit (a / 4), b64Digit (a % 4 * 16 + b / 16), b64Digit (b % 16 * 4), '=']
  | [a] => [b64Digit (a / 4), b64Digit (a % 4 * 16), '=', '=']
  | _ => []

def base64Encode (bs : List Nat) : String :=
  String.mk ((listChunks 3 bs).flatMap b64EncGroup)

def b64CharVal (c : Char) : Option Nat :=
  if 'A' ≤ c ∧ c ≤ 'Z' then some (c.toNat - 65)
  else if 'a' ≤ c ∧ c ≤ 'z' then some (c.toNat - 97 + 26)
  else if '0' ≤ c ∧ c ≤ '9' then some (c.toNat - 48 + 52)
  else if c = '+' ∨ c = '-' then some 62
  else if c = '/' ∨ c = '_' then some 63
  else none

def toBitsBE : Nat → Nat → List Bool
  | 0, _ => []
  | v + 1, n => (n >>> v % 2 == 1) :: toBitsBE v n

def fromBitsBE (bs : List Bool) : Nat :=
  bs.foldl (fun a b => 2 * a + (if b then 1 else 0)) 0

def base64DecodeNode (s : String) : List Nat :=
  let sextets := s.data.filterMap b64CharVal
  let bits := sextets.flatMap (toBitsBE 6)
  (listChunks 8 bits).filterMap (fun ch => if ch.length = 8 then some (fromBitsBE ch) else none)

def isBase64Char (c : Char) : Bool :=
  ('A' ≤ c && c ≤ 'Z') || ('a' ≤ c && c ≤ 'z') || ('0' ≤ c && c ≤ '9') || c == '+' || c == '/'

/-- RFC 4648 well-formedness of a base64 string: alphabet characters followed
by at most two padding characters, total length a multiple of four. -/
def isValidBase64 (s : String) : Bool :=
  let d := s.data
  let core := d.takeWhile isBase64Char
  let pad := d.drop core.length
  decide (d.length % 4 = 0) && pad.all (· == '=') && decide (pad.length ≤ 2)

/-! ### SHA-256 (FIPS 180-4) over byte lists, and HMAC-SHA256 (RFC 2104)

These model the Node `crypto.createHash('sha256')` and
`crypto.createHmac('sha256', key)` primitives used by `crypto.js`.
All 32-bit words are `Nat` values reduced modulo `2 ^ 32`. -/

def w32 : Nat := 4294967296

def rotr32 (n x : Nat) : Nat := (x >>> n ||| x <<< (32 - n)) % w32

def shaCh (x y z : Nat) : Nat := x &&& y ^^^ (x ^^^ 4294967295) &&& z

def shaMaj (x y z : Nat) : Nat := x &&& y ^^^ x &&& z ^^^ y &&& z

def bSig0 (x : Nat) : Nat := rotr32 2 x ^^^ rotr32 13 x ^^^ rotr32 22 x

def bSig1 (x : Nat) : Nat := rotr32 6 x ^^^ rotr32 11 x ^^^ rotr32 25 x

def sSig0 (x : Nat) : Nat := rotr32 7 x ^^^ rotr32 18 x ^^^ x >>> 3

def sSig1 (x : Nat) : Nat := rotr32 17 x ^^^ rotr32 19 x ^^^ x >>> 10

def shaK : List Nat :=
  [1116352408, 1899447441, 3049323471, 3921009573, 961987163, 1508970993,
   2453635748, 2870763221, 3624381080, 310598401, 607225278, 1426881987,
   1925078388, 2162078206, 2614888103, 3248222580, 3835390401, 4022224774,
   264347078, 604807628, 770255983, 1249150122, 1555081692, 1996064986,
   2554220882, 2821834349, 2952996808, 3210313671, 3336571891, 3584528711,
   113926993, 338241895, 666307205, 773529912, 1294757372, 1396182291,
   1695183700, 1986661051, 2177026350, 2456956037, 2730485921, 2820302411,
   3259730800, 3345764771, 3516065817, 3600352804, 4094571909, 275423344,
   430227734, 506948616, 659060556, 883997877, 958139571, 1322822218,
   1537002063, 1747873779, 1955562222, 2024104815, 2227730452, 2361852424,
   2428436474, 2756734187, 3204031479, 3329325298]

def shaH0 : List Nat :=
  [1779033703, 3144134277, 1013904242, 2773480762, 1359893119, 2600822924,
   528734635, 1541459225]

/-- Big-endian combination of a list of bytes into one machine word. -/
def beWord (bs : List Nat) : Nat := bs.foldl (fun a b => a * 256 + b) 0

/-- Message-schedule extension: starting from the 16 block words, append
`fuel` further words by the SHA-256 recurrence. -/
def buildW (fuel : Nat) (w : List Nat) : List Nat :=
  match fuel with
  | 0 => w
  | f + 1 =>
    let t := w.length
    let nw := (sSig1 (w.getD (t - 2) 0) + w.getD (t - 7) 0 + sSig0 (w.getD (t - 15) 0)
               + w.getD (t - 16) 0) % w32
    buildW f (w ++ [nw])

def shaRound (s : List Nat) (kw : Nat × Nat) : List Nat :=
  let a := s.getD 0 0
  let b := s.getD 1 0
  let c := s.getD 2 0
  let d := s.getD 3 0
  let e := s.getD 4 0
  let f := s.getD 5 0
  let g := s.getD 6 0
  let h := s.getD 7 0
  let t1 := (h + bSig1 e + shaCh e f g + kw.1 + kw.2) % w32
  let t2 := (bSig0 a + shaMaj a b c) % w32
  [(t1 + t2) % w32, a, b, c, (d + t1) % w32, e, f, g]

def shaCompress (h : List Nat) (block : List Nat) : List Nat :=
  let words := (listChunks 4 block).map beWord
  let ws := buildW 48 words
  let s := (shaK.zip ws).foldl shaRound h
  (h.zip s).map (fun p => (p.1 + p.2) % w32)

def sha256Pad (msg : List Nat) : List Nat :=
  let l := msg.length
  let k := (64 + 55 - l % 64) % 64
  msg ++ 128 :: List.replicate k 0 ++ (List.range 8).map (fun i => (8 * l) >>> (8 * (7 - i)) % 256)

def wordBytes (w : Nat) : List Nat := [w >>> 24 % 256, w >>> 16 % 256, w >>> 8 % 256, w % 256]

def sha256 (msg : List Nat) : List Nat :=
  ((listChunks 64 (sha256Pad msg)).foldl shaCompress shaH0).flatMap wordBytes

def hmacSha256 (key msg : List Nat) : List Nat :=
  let k0 := if key.length > 64 then sha256 key else key
  let k1 := k0 ++ List.replicate (64 - k0.length) 0
  sha256 (k1.map (· ^^^ 0x5c) ++ sha256 (k1.map (· ^^^ 0x36) ++ msg))

/-! ### `crypto.js`: `generateSignature` and `verifySignature`

`generateSignature(method, path, timestamp, deviceId, userId, body, secretKey)`
builds the message `` `${method}\n${path}\n${timestamp}\n${deviceId}\n${userId}\n${body}` ``
and returns the base64-encoded HMAC-SHA256 of its UTF-8 bytes keyed by the
UTF-8 bytes of `secretKey`. -/

def generateSignature (method path : String) (timestamp : Nat)
    (deviceId userId body secretKey : String) : String :=
  let message := method ++ "\n" ++ path ++ "\n" ++ toString timestamp ++ "\n"
                 ++ deviceId ++ "\n" ++ userId ++ "\n" ++ body
  base64Encode (hmacSha256 (utf8Encode secretKey) (utf8Encode message))

/-- Node `crypto.timingSafeEqual`: compares two equal-length byte buffers,
throws (modelled as `Except.error`) when the lengths differ. -/
def timingSafeEqual (a b : List Nat) : Except String Bool :=
  if a.length = b.length then Except.ok (decide (a = b)) else Except.error "length mismatch"

/-- `verifySignature(signature, expectedSignature)` from `crypto.js`: decodes
both arguments as base64 (Node's lenient decoder) and compares with
`timingSafeEqual` inside a try/catch that maps any thrown error to `false`. -/
def verifySignature (signature expectedSignature : String) : Bool :=
  match timingSafeEqual (base64DecodeNode signature) (base64DecodeNode expectedSignature) with
  | Except.ok r => r
  | Except.error _ => false

/-! ### `crypto.js`: `encrypt` / `decrypt` (AES-256-CBC envelope)

`encrypt`/`decrypt` call Node's `crypto.createCipheriv('aes-256-cbc', ...)`.
The AES block function itself is external library code, so it is kept
abstract: a `BlockCipher` is any 16-byte block permutation family indexed by
a key, with its inverse.  Everything the repository's code adds around the
block cipher — key derivation via SHA-256, the random 16-byte IV, CBC
chaining, PKCS#7 padding, hex encoding, the `iv:ciphertext` envelope, the
legacy passthrough and the error handling — is modelled from the source. -/

structure BlockCipher where
  encryptBlock : List Nat → List Nat → List Nat
  decryptBlock : List Nat → List Nat → List Nat
  enc_length : ∀ k b, b.length = 16 → (encryptBlock k b).length = 16
  enc_isByte : ∀ k b, (∀ x ∈ b, x < 256) → ∀ x ∈ encryptBlock k b, x < 256
  dec_enc : ∀ k b, b.length = 16 → decryptBlock k (encryptBlock k b) = b

/-- A concrete `BlockCipher` used to instantiate theorems about the
CBC envelope on executable inputs: each block is reversed. -/
def revBlockCipher : BlockCipher where
  encryptBlock := fun _ b => b.reverse
  decryptBlock := fun _ b => b.reverse
  enc_length := by intro k b h; simpa using h
  enc_isByte := by intro k b h x hx; exact h x (List.mem_reverse.mp hx)
  dec_enc := by intro k b _; simp

def zipXor (a b : List Nat) : List Nat := List.zipWith Nat.xor a b

def cbcEncryptBlocks (C : BlockCipher) (k : List Nat) : List Nat → List (List Nat) → List (List Nat)
  | _, [] => []
  | prev, b :: bs =>
    let c := C.encryptBlock k (zipXor b prev)
    c :: cbcEncryptBlocks C k c bs

def cbcDecryptBlocks (C : BlockCipher) (k : List Nat) : List Nat → List (List Nat) → List (List Nat)
  | _, [] => []
  | prev, c :: cs => zipXor (C.decryptBlock k c) prev :: cbcDecryptBlocks C k c cs

/-- PKCS#7 padding to a 16-byte block boundary, as applied by Node's
`cipher.final()` with auto-padding. -/
def pkcs7Pad (bs : List Nat) : List Nat :=
  let p := 16 - bs.length % 16
  bs ++ List.replicate p p

/-- PKCS#7 unpadding, as checked by Node's `decipher.final()`: the last byte
`p` must be in `1..16` and the last `p` bytes must all equal `p`; otherwise
decryption fails. -/
def pkcs7Unpad (bs : List Nat) : Option (List Nat) :=
  match bs.getLast? with
  | none => none
  | some p =>
    if 1 ≤ p ∧ p ≤ 16 ∧ p ≤ bs.length ∧ (bs.drop (bs.length - p)).all (· = p) then
      some (bs.take (bs.length - p))
    else none

/-- Resolution of the master key: `process.env.DATA_ENCRYPTION_KEY ||
process.env.ADMIN_TOKEN`, where an unset variable is `none` and an empty
string is falsy. -/
def resolveKey (dek adminTok : Option String) : Option String :=
  match truthy dek with
  | some k => some k
  | none => truthy adminTok

/-- The body of `encrypt(text)` after the master-key check, with the random
IV passed explicitly: derives the 256-bit key as SHA-256 of the key material,
CBC-encrypts the PKCS#7-padded UTF-8 bytes of `text`, and returns
`ivHex ++ ":" ++ ciphertextHex`. -/
def encryptWith (C : BlockCipher) (secretKey : String) (iv : List Nat) (text : String) : String :=
  let key := sha256 (utf8Encode secretKey)
  let padded := pkcs7Pad (utf8Encode text)
  let ct := (cbcEncryptBlocks C key iv (listChunks 16 padded)).flatten
  hexEncode iv ++ ":" ++ hexEncode ct

/-- `encrypt(text)` from `crypto.js`: throws (`Except.error`) when neither
`DATA_ENCRYPTION_KEY` nor `ADMIN_TOKEN` is configured, otherwise encrypts. -/
def encrypt (C : BlockCipher) (dek adminTok : Option String) (iv : List Nat)
    (text : String) : Except String String :=
  match resolveKey dek adminTok with
  | none => Except.error "DATA_ENCRYPTION_KEY not configured"
  | some sk => Except.ok (encryptWith C sk iv text)

/-- The body of `decrypt(text)` after the master-key check: input without a
`:` separator is returned unchanged (legacy data); otherwise the part before
the first `:` is hex-decoded as the IV and the rest is hex-decoded and
CBC-decrypted, any failure (bad IV length, bad ciphertext length, bad
padding) yielding `none` instead of an error. -/
def decryptWith (C : BlockCipher) (secretKey : String) (text : String) : Option String :=
  if text.data.contains ':' then
    let key := sha256 (utf8Encode secretKey)
    let parts := splitOnChar ':' text.data
    let iv := hexDecodeChars (parts.headD [])
    let encryptedText := joinSep ':' parts.tail
    if iv.length = 16 then
      let ctBytes := hexDecodeChars encryptedText
      if ctBytes.length ≠ 0 ∧ ctBytes.length % 16 = 0 then
        match pkcs7Unpad ((cbcDecryptBlocks C key iv (listChunks 16 ctBytes)).flatten) with
        | some pt => some (String.mk (utf8DecodeLossy pt))
        | none => none
      else none
    else none
  else some text

/-- `decrypt(text)` from `crypto.js`: throws (`Except.error`) when no master
key is configured — this check precedes even the legacy passthrough —
otherwise never throws, returning `none` for undecryptable input. -/
def decrypt (C : BlockCipher) (dek adminTok : Option String)
    (text : String) : Except String (Option String) :=
  match resolveKey dek adminTok with
  | none => Except.error "DATA_ENCRYPTION_KEY not configured"
  | some sk => Except.ok (decryptWith C sk text)

/-! ### `admin.js`: project rows and password resolution

`ProjectRow` models a row of `analytics_projects` as read by the admin
routes (`db_password_encrypted` is nullable).  The three resolution
functions model the exact password computation of the
`POST /projects/:id/test`, `GET /projects/:id/health` and
`POST /projects/:id/init` handlers, including the `analytics-system`
environment fallback and the final `dbPassword || undefined`. -/

structure ProjectRow where
  project_id : String
  project_name : String
  db_host : String
  db_port : Nat
  db_name : String
  db_user : String
  db_password_encrypted : Option String
  tablePrefix : String
  is_active : Bool
deriving DecidableEq

/-- Password used by the test-connection handler: the stored
`db_password_encrypted` verbatim, with `process.env.DB_PASSWORD` substituted
when the stored value is falsy and the project is `analytics-system`. -/
def resolveTestPassword (row : ProjectRow) (envPw : Option String) : Option String :=
  truthy (if jsFalsy row.db_password_encrypted && (row.project_id == "analytics-system")
          then envPw else row.db_password_encrypted)

/-- Password used by the health-check handler (same computation as the
test-connection handler). -/
def resolveHealthPassword (row : ProjectRow) (envPw : Option String) : Option String :=
  truthy (if jsFalsy row.db_password_encrypted && (row.project_id == "analytics-system")
          then envPw else row.db_password_encrypted)

/-- Password used by the init handler: the stored value is decrypted first
(`project.db_password_encrypted ? decrypt(...) : undefined`), and
`process.env.DB_PASSWORD` is substituted when the decryption result is falsy
and the project is `analytics-system`.  `decrypt` may throw on a missing
master key, hence the `Except`. -/
def resolveInitPassword (C : BlockCipher) (dek adminTok : Option String)
    (row : ProjectRow) (envPw : Option String) : Except String (Option String) :=
  match truthy row.db_password_encrypted with
  | some s =>
    (decrypt C dek adminTok s).map fun d =>
      truthy (if jsFalsy d && (row.project_id == "analytics-system") then envPw else d)
  | none =>
    Except.ok (truthy (if row.project_id == "analytics-system" then envPw else none))

/-- Request body of `PUT /projects/:id` (all scalar fields present,
`db_password` optional). -/
structure UpdateReq where
  project_name : String
  db_host : String
  db_port : Nat
  db_name : String
  db_user : String
  db_password : Option String
  tablePrefix : String
  is_active : Bool
deriving DecidableEq

/-- The `PUT /projects/:id` handler applied to the matched row: when
`db_password` is truthy it is encrypted and all eight columns are updated,
otherwise the seven non-password columns are updated and
`db_password_encrypted` is left alone. -/
def updateProject (C : BlockCipher) (dek adminTok : Option String) (iv : List Nat)
    (row : ProjectRow) (req : UpdateReq) : Except String ProjectRow :=
  match truthy req.db_password with
  | some p =>
    (encrypt C dek adminTok iv p).map fun e =>
      { row with
        project_name := req.project_name, db_host := req.db_host, db_port := req.db_port,
        db_name := req.db_name, db_user := req.db_user, db_password_encrypted := some e,
        tablePrefix := req.tablePrefix, is_active := req.is_active }
  | none =>
    Except.ok
      { row with
        project_name := req.project_name, db_host := req.db_host, db_port := req.db_port,
        db_name := req.db_name, db_user := req.db_user,
        tablePrefix := req.tablePrefix, is_active := req.is_active }

/-! ### Lemmas: UTF-8 round trip -/

theorem char_toNat_lt (c : Char) : c.toNat < 1114112 := by
  rcases c.valid with h | h
  · exact Nat.lt_trans h (by norm_num)
  · exact h.2

theorem utf8EncodeChar_lt (c : Char) : ∀ x ∈ utf8EncodeChar c, x < 256 := by
  have hv : c.toNat < 1114112 := char_toNat_lt c
  intro x hx
  unfold utf8EncodeChar at hx
  split at hx
  · simp only [List.mem_cons, List.not_mem_nil, or_false] at hx
    omega
  · split at hx
    · simp only [List.mem_cons, List.not_mem_nil, or_false] at hx
      rcases hx with h | h <;> omega
    · split at hx
      · simp only [List.mem_cons, List.not_mem_nil, or_false] at hx
        rcases hx with h | h | h <;> omega
      · simp only [List.mem_cons, List.not_mem_nil, or_false] at hx
        rcases hx with h | h | h | h <;> omega

theorem utf8DecodeLossy_cons (b0 : Nat) (bs : List Nat) :
    utf8DecodeLossy (b0 :: bs)
      = (utf8Step b0 bs).1 :: utf8DecodeLossy (bs.drop ((utf8Step b0 bs).2 - 1)) := by
  show utf8DecodeLossyAux (bs.length + 1) (b0 :: bs) = _
  rw [utf8DecodeLossyAux]
  rw [utf8DecodeLossyAux_congr bs.length (bs.drop ((utf8Step b0 bs).2 - 1))
    (by simp only [List.length_drop]; omega)]

theorem utf8DecodeLossy_encodeChar (c : Char) (rest : List Nat) :
    utf8DecodeLossy (utf8EncodeChar c ++ rest) = c :: utf8DecodeLossy rest := by
  have hv : c.toNat < 1114112 := char_toNat_lt c
  have hc : Char.ofNat c.toNat = c := Char.ofNat_toNat c
  unfold utf8EncodeChar
  by_cases h1 : c.toNat < 128
  · rw [if_pos h1, List.cons_append, utf8DecodeLossy_cons]
    simp only [utf8Step, if_pos h1]
    simp [hc]
  · rw [if_neg h1]
    by_cases h2 : c.toNat < 2048
    · rw [if_pos h2, List.cons_append, List.cons_append, utf8DecodeLossy_cons]
      have harg : (192 + c.toNat / 64 - 192) * 64 + (128 + c.toNat % 64 - 128) = c.toNat := by
        omega
      simp only [utf8Step, if_neg (by omega : ¬ (192 + c.toNat / 64 < 128)),
        if_neg (by omega : ¬ (192 + c.toNat / 64 < 192)),
        if_pos (by omega : 192 + c.toNat / 64 < 224),
        if_pos (⟨by omega, by omega⟩ : 128 ≤ 128 + c.toNat % 64 ∧ 128 + c.toNat % 64 < 192)]
      simp only [harg, hc]
      simp
    · rw [if_neg h2]
      by_cases h3 : c.toNat < 65536
      · rw [if_pos h3, List.cons_append, List.cons_append, List.cons_append,
          utf8DecodeLossy_cons]
        have harg : (224 + c.toNat / 4096 - 224) * 4096 + (128 + c.toNat / 64 % 64 - 128) * 64
            + (128 + c.toNat % 64 - 128) = c.toNat := by
          omega
        simp only [utf8Step, if_neg (by omega : ¬ (224 + c.toNat / 4096 < 128)),
          if_neg (by omega : ¬ (224 + c.toNat / 4096 < 192)),
          if_neg (by omega : ¬ (224 + c.toNat / 4096 < 224)),
          if_pos (by omega : 224 + c.toNat / 4096 < 240),
          if_pos (show (128 ≤ 128 + c.toNat / 64 % 64 ∧ 128 + c.toNat / 64 % 64 < 192)
              ∧ 128 ≤ 128 + c.toNat % 64 ∧ 128 + c.toNat % 64 < 192 from
            ⟨⟨by omega, by omega⟩, by omega, by omega⟩)]
        simp only [harg, hc]
        simp
      · rw [if_neg h3, List.cons_append, List.cons_append, List.cons_append, List.cons_append,
          utf8DecodeLossy_cons]
        have harg : (240 + c.toNat / 262144 - 240) * 262144
            + (128 + c.toNat / 4096 % 64 - 128) * 4096
            + (128 + c.toNat / 64 % 64 - 128) * 64 + (128 + c.toNat % 64 - 128) = c.toNat := by
          omega
        simp only [utf8Step, if_neg (by omega : ¬ (240 + c.toNat / 262144 < 128)),
          if_neg (by omega : ¬ (240 + c.toNat / 262144 < 192)),
          if_neg (by omega : ¬ (240 + c.toNat / 262144 < 224)),
          if_neg (by omega : ¬ (240 + c.toNat / 262144 < 240)),
          if_pos (by omega : 240 + c.toNat / 262144 < 248),
          if_pos (show ((128 ≤ 128 + c.toNat / 4096 % 64 ∧ 128 + c.toNat / 4096 % 64 < 192)
                ∧ (128 ≤ 128 + c.toNat / 64 % 64 ∧ 128 + c.toNat / 64 % 64 < 192)
                ∧ 128 ≤ 128 + c.toNat % 64 ∧ 128 + c.toNat % 64 < 192) from
            ⟨⟨by omega, by omega⟩, ⟨by omega, by omega⟩, by omega, by omega⟩)]
        simp only [harg, hc]
        simp

theorem utf8DecodeLossy_utf8Encode (s : String) :
    utf8DecodeLossy (utf8Encode s) = s.data := by
  show utf8DecodeLossy (s.data.flatMap utf8EncodeChar) = s.data
  induction s.data with
  | nil => rfl
  | cons c cs ih => rw [List.flatMap_cons, utf8DecodeLossy_encodeChar, ih]

theorem utf8Encode_lt (s : String) : ∀ x ∈ utf8Encode s, x < 256 := by
  intro x hx
  simp only [utf8Encode, List.mem_flatMap] at hx
  obtain ⟨c, _, hc⟩ := hx
  exact utf8EncodeChar_lt c x hc

/-! ### Lemmas: hex round trip -/

theorem hexVal_hexDigit : ∀ k, k < 16 → hexVal (hexDigit k) = some k := by decide

theorem hexDigit_ne_colon (k : Nat) : hexDigit k ≠ ':' := by
  unfold hexDigit
  split <;> decide

theorem colon_not_mem_hexEncodeChars (bs : List Nat) : ':' ∉ hexEncodeChars bs := by
  intro h
  simp only [hexEncodeChars, List.mem_flatMap, hexByte] at h
  obtain ⟨b, _, hb⟩ := h
  simp only [List.mem_cons, List.not_mem_nil, or_false] at hb
  rcases hb with h | h
  · exact hexDigit_ne_colon _ h.symm
  · exact hexDigit_ne_colon _ h.symm

theorem hexDecodeChars_hexEncodeChars (bs : List Nat) (h : ∀ x ∈ bs, x < 256) :
    hexDecodeChars (hexEncodeChars bs) = bs := by
  induction bs with
  | nil => rfl
  | cons b rest ih =>
    have hb : b < 256 := h b (List.mem_cons_self b rest)
    have hrest : ∀ x ∈ rest, x < 256 := fun x hx => h x (List.mem_cons_of_mem b hx)
    simp only [hexEncodeChars, List.flatMap_cons, hexByte, List.cons_append, List.nil_append]
    rw [hexDecodeChars]
    rw [hexVal_hexDigit (b / 16) (by omega), hexVal_hexDigit (b % 16) (by omega)]
    show (b / 16 * 16 + b % 16) :: hexDecodeChars (rest.flatMap hexByte) = b :: rest
    have hb16 : b / 16 * 16 + b % 16 = b := by omega
    rw [hb16]
    exact congrArg (b :: ·) (ih hrest)

theorem hexEncodeChars_length (bs : List Nat) : (hexEncodeChars bs).length = 2 * bs.length := by
  induction bs with
  | nil => rfl
  | cons b rest ih =>
    simp only [hexEncodeChars, List.flatMap_cons, hexByte, List.length_append, List.length_cons,
      List.length_nil, List.length_cons] at ih ⊢
    omega

/-! ### Lemmas: splitting on a separator -/

theorem splitOnChar_ne_nil (c : Char) (l : List Char) : splitOnChar c l ≠ [] := by
  induction l with
  | nil => simp [splitOnChar]
  | cons x xs ih =>
    rw [splitOnChar]
    cases hs : splitOnChar c xs with
    | nil => simp
    | cons h' t => by_cases hx : x = c <;> simp [hx]

theorem splitOnChar_not_mem (c : Char) (l : List Char) (h : c ∉ l) :
    splitOnChar c l = [l] := by
  induction l with
  | nil => rfl
  | cons x xs ih =>
    have hx : x ≠ c := fun he => h (he ▸ List.mem_cons_self x xs)
    have hxs : c ∉ xs := fun hm => h (List.mem_cons_of_mem x hm)
    rw [splitOnChar, ih hxs]
    simp [hx]

theorem splitOnChar_append (c : Char) (a b : List Char) (h : c ∉ a) :
    splitOnChar c (a ++ c :: b) = a :: splitOnChar c b := by
  induction a with
  | nil =>
    rw [List.nil_append, splitOnChar]
    match hb : splitOnChar c b with
    | [] => exact absurd hb (splitOnChar_ne_nil c b)
    | h' :: t => simp
  | cons x xs ih =>
    have hx : x ≠ c := fun he => h (he ▸ List.mem_cons_self x xs)
    have hxs : c ∉ xs := fun hm => h (List.mem_cons_of_mem x hm)
    rw [List.cons_append, splitOnChar, ih hxs]
    simp [hx]

/-! ### Lemmas: chunking -/

theorem flatten_listChunks (k : Nat) : (l : List α) → (listChunks k l).flatten = l
  | [] => by simp [listChunks_nil]
  | a :: rest => by
    rw [listChunks_cons]
    simp only [List.flatten_cons]
    rw [flatten_listChunks k (rest.drop (k - 1))]
    simp [List.take_append_drop]
termination_by l => l.length
decreasing_by simp only [List.length_cons, List.length_drop]; omega

theorem listChunks_flatten (k : Nat) (hk : 1 ≤ k) (bls : List (List α))
    (h : ∀ b ∈ bls, b.length = k) : listChunks k bls.flatten = bls := by
  induction bls with
  | nil => simp [listChunks_nil]
  | cons b bls ih =>
    have hb : b.length = k := h b (List.mem_cons_self b bls)
    have hbls : ∀ x ∈ bls, x.length = k := fun x hx => h x (List.mem_cons_of_mem b hx)
    cases b with
    | nil => simp at hb; omega
    | cons x xs =>
      simp only [List.flatten_cons, List.cons_append, listChunks_cons]
      have hxs : xs.length = k - 1 := by
        simp only [List.length_cons] at hb; omega
      rw [List.take_left' hxs, List.drop_left' hxs, ih hbls]

theorem listChunks_length_eq (k : Nat) (hk : 1 ≤ k) : (l : List α) → l.length % k = 0 →
    ∀ b ∈ listChunks k l, b.length = k
  | [], _, b, hb => by simp [listChunks_nil] at hb
  | a :: rest, hlen, b, hb => by
    rw [listChunks_cons] at hb
    have hlen2 : (rest.length + 1) % k = 0 := by simpa using hlen
    have hge : k - 1 ≤ rest.length := by
      rcases Nat.lt_or_ge (rest.length + 1) k with hlt | hge2
      · rw [Nat.mod_eq_of_lt hlt] at hlen2; omega
      · omega
    rcases List.mem_cons.mp hb with rfl | hmem
    · simp only [List.length_cons, List.length_take]
      omega
    · have hdrop : (rest.drop (k - 1)).length % k = 0 := by
        simp only [List.length_drop]
        obtain ⟨q, hq⟩ := Nat.dvd_of_mod_eq_zero hlen2
        have hq0 : q ≠ 0 := by
          rintro rfl
          rw [Nat.mul_zero] at hq
          omega
        obtain ⟨q', rfl⟩ : ∃ q', q = q' + 1 := ⟨q - 1, by omega⟩
        rw [Nat.mul_succ] at hq
        have heq : rest.length - (k - 1) = k * q' := by omega
        rw [heq]
        exact Nat.mul_mod_right k q'
      exact listChunks_length_eq k hk (rest.drop (k - 1)) hdrop b hmem
termination_by l => l.length
decreasing_by simp only [List.length_cons, List.length_drop]; omega

theorem flatten_length_const (k : Nat) (bls : List (List α))
    (h : ∀ b ∈ bls, b.length = k) : bls.flatten.length = k * bls.length := by
  induction bls with
  | nil => simp
  | cons b bls ih =>
    have hb : b.length = k := h b (List.mem_cons_self b bls)
    have hbls : ∀ x ∈ bls, x.length = k := fun x hx => h x (List.mem_cons_of_mem b hx)
    simp only [List.flatten_cons, List.length_append, List.length_cons, ih hbls, hb]
    ring

/-! ### Lemmas: XOR on byte lists and CBC inversion -/

theorem zipXor_length (a b : List Nat) : (zipXor a b).length = min a.length b.length := by
  simp [zipXor]

theorem zipXor_lt (a b : List Nat) (ha : ∀ x ∈ a, x < 256) (hb : ∀ x ∈ b, x < 256) :
    ∀ x ∈ zipXor a b, x < 256 := by
  intro x hx
  simp only [zipXor] at hx
  obtain ⟨i, hi, hx⟩ := List.mem_iff_getElem.mp hx
  rw [List.getElem_zipWith] at hx
  subst hx
  exact Nat.xor_lt_two_pow (n := 8)
    (ha _ (List.getElem_mem _)) (hb _ (List.getElem_mem _))

theorem zipXor_cancel (a b : List Nat) (h : a.length = b.length) :
    zipXor (zipXor a b) b = a := by
  induction a generalizing b with
  | nil => simp [zipXor]
  | cons x xs ih =>
    cases b with
    | nil => simp at h
    | cons y ys =>
      simp only [zipXor, List.zipWith_cons_cons] at *
      have hxy : Nat.xor (Nat.xor x y) y = x := by
        show x ^^^ y ^^^ y = x
        rw [Nat.xor_assoc, Nat.xor_self, Nat.xor_zero]
      rw [hxy, ih ys (by simpa using h)]

theorem cbcEncryptBlocks_props (C : BlockCipher) (k : List Nat) :
    ∀ (bs : List (List Nat)) (prev : List Nat), prev.length = 16 → (∀ x ∈ prev, x < 256) →
      (∀ b ∈ bs, b.length = 16 ∧ ∀ x ∈ b, x < 256) →
      ∀ cb ∈ cbcEncryptBlocks C k prev bs, cb.length = 16 ∧ ∀ x ∈ cb, x < 256 := by
  intro bs
  induction bs with
  | nil => intro prev _ _ _ cb hcb; simp [cbcEncryptBlocks] at hcb
  | cons b bs ih =>
    intro prev hplen hplt hbs cb hcb
    have hb := hbs b (List.mem_cons_self b bs)
    have hbs2 : ∀ x ∈ bs, x.length = 16 ∧ ∀ y ∈ x, y < 256 :=
      fun x hx => hbs x (List.mem_cons_of_mem b hx)
    have hxlen : (zipXor b prev).length = 16 := by
      simp [zipXor_length, hb.1, hplen]
    have hclen : (C.encryptBlock k (zipXor b prev)).length = 16 := C.enc_length k _ hxlen
    have hclt : ∀ x ∈ C.encryptBlock k (zipXor b prev), x < 256 :=
      C.enc_isByte k _ (zipXor_lt b prev hb.2 hplt)
    simp only [cbcEncryptBlocks, List.mem_cons] at hcb
    rcases hcb with rfl | hmem
    · exact ⟨hclen, hclt⟩
    · exact ih _ hclen hclt hbs2 cb hmem

theorem cbcDecryptBlocks_cbcEncryptBlocks (C : BlockCipher) (k : List Nat) :
    ∀ (bs : List (List Nat)) (prev : List Nat), prev.length = 16 →
      (∀ b ∈ bs, b.length = 16) →
      cbcDecryptBlocks C k prev (cbcEncryptBlocks C k prev bs) = bs := by
  intro bs
  induction bs with
  | nil => intro prev _ _; simp [cbcEncryptBlocks, cbcDecryptBlocks]
  | cons b bs ih =>
    intro prev hplen hbs
    have hb : b.length = 16 := hbs b (List.mem_cons_self b bs)
    have hbs2 : ∀ x ∈ bs, x.length = 16 := fun x hx => hbs x (List.mem_cons_of_mem b hx)
    have hxlen : (zipXor b prev).length = 16 := by
      simp [zipXor_length, hb, hplen]
    simp only [cbcEncryptBlocks, cbcDecryptBlocks]
    rw [C.dec_enc k _ hxlen]
    rw [zipXor_cancel b prev (by omega)]
    rw [ih _ (C.enc_length k _ hxlen) hbs2]

/-! ### Lemmas: PKCS#7 padding -/

theorem getLast?_replicate_succ (n : Nat) (x : α) :
    (List.replicate (n + 1) x).getLast? = some x := by
  induction n with
  | zero => rfl
  | succ m ih =>
    rw [List.replicate_succ, List.replicate_succ, List.getLast?_cons_cons,
      ← List.replicate_succ]
    exact ih

theorem all_replicate_self (n p : Nat) : (List.replicate n p).all (· = p) = true := by
  induction n with
  | zero => rfl
  | succ m ih => simp [List.replicate_succ, ih]

theorem pkcs7Unpad_pkcs7Pad (bs : List Nat) : pkcs7Unpad (pkcs7Pad bs) = some bs := by
  unfold pkcs7Pad pkcs7Unpad
  have hp1 : 1 ≤ 16 - bs.length % 16 := by omega
  have hp16 : 16 - bs.length % 16 ≤ 16 := by omega
  obtain ⟨m, hm⟩ : ∃ m, 16 - bs.length % 16 = m + 1 := ⟨16 - bs.length % 16 - 1, by omega⟩
  rw [hm, List.getLast?_append, getLast?_replicate_succ]
  simp only [Option.or_some]
  have hlen : (bs ++ List.replicate (m + 1) (m + 1)).length = bs.length + (m + 1) := by
    simp
  rw [if_pos]
  · rw [hlen]
    have hsub : bs.length + (m + 1) - (m + 1) = bs.length := by omega
    rw [hsub, List.take_left]
  · refine ⟨by omega, by omega, by rw [hlen]; omega, ?_⟩
    rw [hlen]
    have hsub : bs.length + (m + 1) - (m + 1) = bs.length := by omega
    rw [hsub, List.drop_left]
    exact all_replicate_self (m + 1) (m + 1)

theorem pkcs7Pad_length_mod (bs : List Nat) : (pkcs7Pad bs).length % 16 = 0 := by
  simp only [pkcs7Pad, List.length_append, List.length_replicate]
  omega

theorem pkcs7Pad_ne_nil (bs : List Nat) : pkcs7Pad bs ≠ [] := by
  simp only [pkcs7Pad]
  intro h
  have := congrArg List.length h
  simp only [List.length_append, List.length_replicate, List.length_nil] at this
  omega

theorem pkcs7Pad_lt (bs : List Nat) (h : ∀ x ∈ bs, x < 256) :
    ∀ x ∈ pkcs7Pad bs, x < 256 := by
  intro x hx
  simp only [pkcs7Pad, List.mem_append] at hx
  rcases hx with hx | hx
  · exact h x hx
  · have := List.eq_of_mem_replicate hx
    omega

/-! ### Lemmas: the envelope round trip -/

theorem listChunks_ne_nil (k : Nat) (l : List α) (h : l ≠ []) : listChunks k l ≠ [] := by
  cases l with
  | nil => exact absurd rfl h
  | cons a rest => rw [listChunks_cons]; simp

theorem listChunks_mem_subset (k : Nat) : ∀ (l : List α) (b : List α), b ∈ listChunks k l →
    ∀ x ∈ b, x ∈ l
  | [], b, hb => by simp [listChunks_nil] at hb
  | a :: rest, b, hb => by
    rw [listChunks_cons] at hb
    intro x hx
    rcases List.mem_cons.mp hb with hbeq | hmem
    · subst hbeq
      rcases List.mem_cons.mp hx with hxeq | hx2
      · subst hxeq
        exact List.mem_cons_self _ _
      · exact List.mem_cons_of_mem a (List.mem_of_mem_take hx2)
    · exact List.mem_cons_of_mem a
        (List.mem_of_mem_drop (listChunks_mem_subset k (rest.drop (k - 1)) b hmem x hx))
termination_by l => l.length
decreasing_by simp only [List.length_cons, List.length_drop]; omega

theorem encryptWith_data (C : BlockCipher) (sk : String) (iv : List Nat) (text : String) :
    (encryptWith C sk iv text).data
      = hexEncodeChars iv
        ++ ':' :: hexEncodeChars
            ((cbcEncryptBlocks C (sha256 (utf8Encode sk)) iv
               (listChunks 16 (pkcs7Pad (utf8Encode text)))).flatten) := by
  show (hexEncode iv ++ ":"
      ++ hexEncode ((cbcEncryptBlocks C (sha256 (utf8Encode sk)) iv
           (listChunks 16 (pkcs7Pad (utf8Encode text)))).flatten)).data = _
  rw [String.data_append, String.data_append, List.append_assoc]
  rfl

theorem splitOnChar_encryptWith (C : BlockCipher) (sk : String) (iv : List Nat) (text : String) :
    splitOnChar ':' (encryptWith C sk iv text).data
      = [hexEncodeChars iv,
         hexEncodeChars
           ((cbcEncryptBlocks C (sha256 (utf8Encode sk)) iv
              (listChunks 16 (pkcs7Pad (utf8Encode text)))).flatten)] := by
  rw [encryptWith_data, splitOnChar_append _ _ _ (colon_not_mem_hexEncodeChars iv),
    splitOnChar_not_mem _ _ (colon_not_mem_hexEncodeChars _)]

theorem encryptWith_contains_colon (C : BlockCipher) (sk : String) (iv : List Nat)
    (text : String) : (encryptWith C sk iv text).data.contains ':' = true := by
  rw [encryptWith_data]
  simp [List.contains, List.elem_eq_mem]

/-- The central round-trip fact: for any block cipher, decrypting the
envelope produced by `encryptWith` with the same key material recovers the
plaintext. -/
theorem decryptWith_encryptWith (C : BlockCipher) (sk : String) (iv : List Nat)
    (hlen : iv.length = 16) (hlt : ∀ x ∈ iv, x < 256) (text : String) :
    decryptWith C sk (encryptWith C sk iv text) = some text := by
  have hpadmod : (pkcs7Pad (utf8Encode text)).length % 16 = 0 := pkcs7Pad_length_mod _
  have hpadlt : ∀ x ∈ pkcs7Pad (utf8Encode text), x < 256 :=
    pkcs7Pad_lt _ (utf8Encode_lt text)
  have hblen : ∀ b ∈ listChunks 16 (pkcs7Pad (utf8Encode text)), b.length = 16 :=
    listChunks_length_eq 16 (by omega) _ hpadmod
  have hbprop : ∀ b ∈ listChunks 16 (pkcs7Pad (utf8Encode text)),
      b.length = 16 ∧ ∀ x ∈ b, x < 256 := by
    intro b hb
    exact ⟨hblen b hb, fun x hx => hpadlt x (listChunks_mem_subset 16 _ b hb x hx)⟩
  have hctprop : ∀ cb ∈ cbcEncryptBlocks C (sha256 (utf8Encode sk)) iv
      (listChunks 16 (pkcs7Pad (utf8Encode text))), cb.length = 16 ∧ ∀ x ∈ cb, x < 256 :=
    cbcEncryptBlocks_props C _ _ iv hlen hlt hbprop
  have hctlt : ∀ x ∈ (cbcEncryptBlocks C (sha256 (utf8Encode sk)) iv
      (listChunks 16 (pkcs7Pad (utf8Encode text)))).flatten, x < 256 := by
    intro x hx
    rw [List.mem_flatten] at hx
    obtain ⟨cb, hcb, hxcb⟩ := hx
    exact (hctprop cb hcb).2 x hxcb
  have hctlen : (cbcEncryptBlocks C (sha256 (utf8Encode sk)) iv
        (listChunks 16 (pkcs7Pad (utf8Encode text)))).flatten.length
      = 16 * (cbcEncryptBlocks C (sha256 (utf8Encode sk)) iv
          (listChunks 16 (pkcs7Pad (utf8Encode text)))).length :=
    flatten_length_const 16 _ (fun b hb => (hctprop b hb).1)
  have hbne : listChunks 16 (pkcs7Pad (utf8Encode text)) ≠ [] :=
    listChunks_ne_nil 16 _ (pkcs7Pad_ne_nil _)
  have hebne : cbcEncryptBlocks C (sha256 (utf8Encode sk)) iv
      (listChunks 16 (pkcs7Pad (utf8Encode text))) ≠ [] := by
    cases hblk : listChunks 16 (pkcs7Pad (utf8Encode text)) with
    | nil => exact absurd hblk hbne
    | cons b bs => simp [cbcEncryptBlocks]
  have hctne : (cbcEncryptBlocks C (sha256 (utf8Encode sk)) iv
      (listChunks 16 (pkcs7Pad (utf8Encode text)))).flatten.length ≠ 0 := by
    rw [hctlen]
    have hne : (cbcEncryptBlocks C (sha256 (utf8Encode sk)) iv
        (listChunks 16 (pkcs7Pad (utf8Encode text)))).length ≠ 0 :=
      fun h => hebne (List.length_eq_zero.mp h)
    omega
  have hctmod : (cbcEncryptBlocks C (sha256 (utf8Encode sk)) iv
      (listChunks 16 (pkcs7Pad (utf8Encode text)))).flatten.length % 16 = 0 := by
    rw [hctlen]
    exact Nat.mul_mod_right 16 _
  rw [decryptWith, if_pos (encryptWith_contains_colon C sk iv text)]
  simp only [splitOnChar_encryptWith, List.headD_cons, List.tail_cons, joinSep,
    hexDecodeChars_hexEncodeChars iv hlt,
    hexDecodeChars_hexEncodeChars _ hctlt, hlen,
    hctne, hctmod, ne_eq, not_false_eq_true, and_self, if_true, reduceIte,
    listChunks_flatten 16 (by omega) _ (fun b hb => (hctprop b hb).1),
    cbcDecryptBlocks_cbcEncryptBlocks C _ _ iv hlen hblen,
    flatten_listChunks, pkcs7Unpad_pkcs7Pad, utf8DecodeLossy_utf8Encode]

theorem hexEncodeChars_inj (a b : List Nat) (ha : ∀ x ∈ a, x < 256) (hb : ∀ x ∈ b, x < 256)
    (h : hexEncodeChars a = hexEncodeChars b) : a = b := by
  have := congrArg hexDecodeChars h
  rwa [hexDecodeChars_hexEncodeChars a ha, hexDecodeChars_hexEncodeChars b hb] at this

theorem encryptWith_iv_inj (C : BlockCipher) (sk : String) (iv1 iv2 : List Nat)
    (h1 : ∀ x ∈ iv1, x < 256) (h2 : ∀ x ∈ iv2, x < 256) (text1 text2 : String)
    (hne : iv1 ≠ iv2) : encryptWith C sk iv1 text1 ≠ encryptWith C sk iv2 text2 := by
  intro heq
  apply hne
  have hd := congrArg String.data heq
  have hs := congrArg (splitOnChar ':') hd
  rw [splitOnChar_encryptWith, splitOnChar_encryptWith] at hs
  simp only [List.cons.injEq, and_true] at hs
  exact hexEncodeChars_inj iv1 iv2 h1 h2 hs.1

/-! ### Lemmas: verification, key resolution, envelope length -/

theorem verifySignature_self (s : String) : verifySignature s s = true := by
  unfold verifySignature timingSafeEqual
  rw [if_pos rfl]
  simp

theorem resolveKey_some_left (sk : String) (hsk : sk ≠ "") (adm : Option String) :
    resolveKey (some sk) adm = some sk := by
  simp [resolveKey, truthy, hsk]

theorem utf8EncodeChar_length_pos (c : Char) : 1 ≤ (utf8EncodeChar c).length := by
  unfold utf8EncodeChar
  split
  · simp
  · split
    · simp
    · split <;> simp

theorem utf8Encode_length_ge (s : String) : s.data.length ≤ (utf8Encode s).length := by
  show s.data.length ≤ (s.data.flatMap utf8EncodeChar).length
  induction s.data with
  | nil => simp
  | cons c cs ih =>
    rw [List.flatMap_cons, List.length_append, List.length_cons]
    have := utf8EncodeChar_length_pos c
    omega

theorem cbcEncryptBlocks_length (C : BlockCipher) (k : List Nat) :
    ∀ (bs : List (List Nat)) (prev : List Nat), (cbcEncryptBlocks C k prev bs).length = bs.length
  | [], _ => rfl
  | b :: bs, prev => by
    simp only [cbcEncryptBlocks, List.length_cons]
    rw [cbcEncryptBlocks_length C k bs _]

theorem cbcEncryptBlocks_len_only (C : BlockCipher) (k : List Nat) :
    ∀ (bs : List (List Nat)) (prev : List Nat), prev.length = 16 →
      (∀ b ∈ bs, b.length = 16) →
      ∀ cb ∈ cbcEncryptBlocks C k prev bs, cb.length = 16 := by
  intro bs
  induction bs with
  | nil => intro prev _ _ cb hcb; simp [cbcEncryptBlocks] at hcb
  | cons b bs ih =>
    intro prev hplen hbs cb hcb
    have hb : b.length = 16 := hbs b (List.mem_cons_self b bs)
    have hbs2 : ∀ v ∈ bs, v.length = 16 := fun v hv => hbs v (List.mem_cons_of_mem b hv)
    have hxlen : (zipXor b prev).length = 16 := by
      simp [zipXor_length, hb, hplen]
    have hclen : (C.encryptBlock k (zipXor b prev)).length = 16 := C.enc_length k _ hxlen
    simp only [cbcEncryptBlocks, List.mem_cons] at hcb
    rcases hcb with rfl | hmem
    · exact hclen
    · exact ih _ hclen hbs2 cb hmem

theorem encryptWith_data_length (C : BlockCipher) (sk : String) (iv : List Nat)
    (hiv : iv.length = 16) (x : String) :
    (encryptWith C sk iv x).data.length = 33 + 2 * (pkcs7Pad (utf8Encode x)).length := by
  have hpadmod : (pkcs7Pad (utf8Encode x)).length % 16 = 0 := pkcs7Pad_length_mod _
  have hblen : ∀ b ∈ listChunks 16 (pkcs7Pad (utf8Encode x)), b.length = 16 :=
    listChunks_length_eq 16 (by omega) _ hpadmod
  have hctprop := cbcEncryptBlocks_len_only C (sha256 (utf8Encode sk)) _ iv hiv hblen
  rw [encryptWith_data]
  simp only [List.length_append, List.length_cons, hexEncodeChars_length, hiv]
  have hctlen : (cbcEncryptBlocks C (sha256 (utf8Encode sk)) iv
        (listChunks 16 (pkcs7Pad (utf8Encode x)))).flatten.length
      = 16 * (cbcEncryptBlocks C (sha256 (utf8Encode sk)) iv
          (listChunks 16 (pkcs7Pad (utf8Encode x)))).length := by
    apply flatten_length_const
    intro b hb
    exact hctprop b hb
  have hnum : (cbcEncryptBlocks C (sha256 (utf8Encode sk)) iv
        (listChunks 16 (pkcs7Pad (utf8Encode x)))).length
      = (listChunks 16 (pkcs7Pad (utf8Encode x))).length := cbcEncryptBlocks_length C _ _ iv
  have hpadlen : (pkcs7Pad (utf8Encode x)).length
      = 16 * (listChunks 16 (pkcs7Pad (utf8Encode x))).length := by
    conv_lhs => rw [← flatten_listChunks 16 (pkcs7Pad (utf8Encode x))]
    exact flatten_length_const 16 _ hblen
  rw [hctlen, hnum]
  omega

theorem encryptWith_ne_empty (C : BlockCipher) (sk : String) (iv : List Nat)
    (hiv : iv.length = 16) (x : String) : encryptWith C sk iv x ≠ "" := by
  intro h
  have hlen : (encryptWith C sk iv x).data.length = ("" : String).data.length := by rw [h]
  rw [encryptWith_data_length C sk iv hiv x] at hlen
  simp at hlen

theorem encryptWith_ne_plain (C : BlockCipher) (sk : String) (iv : List Nat)
    (hiv : iv.length = 16) (x : String) : encryptWith C sk iv x ≠ x := by
  intro h
  have hlen : (encryptWith C sk iv x).data.length = x.data.length := by rw [h]
  rw [encryptWith_data_length C sk iv hiv x] at hlen
  have h1 : x.data.length ≤ (utf8Encode x).length := utf8Encode_length_ge x
  have h2 : (utf8Encode x).length < (pkcs7Pad (utf8Encode x)).length := by
    simp only [pkcs7Pad, List.length_append, List.length_replicate]
    omega
  omega

/-! ### The claims -/

/-- C1: for every method, path, timestampMillis, deviceId, userId, body and
secret, `generateSignature` returns the base64 encoding of the HMAC-SHA256 of
the six fields joined by newline characters in exactly the order method,
path, timestamp, deviceId, userId, body, keyed by the secret. -/
theorem c1_generateSignature_canonical (method path : String) (timestamp : Nat)
    (deviceId userId body secretKey : String) :
    generateSignature method path timestamp deviceId userId body secretKey
      = base64Encode (hmacSha256 (utf8Encode secretKey)
          (utf8Encode (String.intercalate "\n"
            [method, path, toString timestamp, deviceId, userId, body]))) := rfl

/-- C2: verifying a signature against itself succeeds: for every tuple and
secret, `verifySignature (generateSignature ...) (generateSignature ...)`
returns `true`. -/
theorem c2_verify_sign_self (method path : String) (timestamp : Nat)
    (deviceId userId body secretKey : String) :
    verifySignature (generateSignature method path timestamp deviceId userId body secretKey)
      (generateSignature method path timestamp deviceId userId body secretKey) = true :=
  verifySignature_self _

/-- C3: for every non-empty plaintext and configured master key (and any
block cipher), decrypting the envelope produced by `encryptWith` returns the
plaintext: `decrypt (encrypt x)` = `x`. -/
theorem c3_decrypt_encrypt_roundtrip (C : BlockCipher) (masterKey : String) (iv : List Nat)
    (hiv : iv.length = 16) (hlt : ∀ v ∈ iv, v < 256) (x : String) (_hx : x ≠ "") :
    decryptWith C masterKey (encryptWith C masterKey iv x) = some x :=
  decryptWith_encryptWith C masterKey iv hiv hlt x

/-- C3 witness: the round trip evaluated at a concrete cipher, key, IV and
plaintext. -/
theorem c3_witness :
    (List.replicate 16 0 : List Nat).length = 16
    ∧ (∀ v ∈ (List.replicate 16 0 : List Nat), v < 256)
    ∧ "secret-pw" ≠ ""
    ∧ decryptWith revBlockCipher "master"
        (encryptWith revBlockCipher "master" (List.replicate 16 0) "secret-pw")
        = some "secret-pw" :=
  ⟨by decide, by decide, by decide,
    c3_decrypt_encrypt_roundtrip revBlockCipher "master" (List.replicate 16 0)
      (by decide) (by decide) "secret-pw" (by decide)⟩

/-- C4: with the master key configured, `decrypt` never throws: it always
returns `Except.ok`; input without a `:` separator is returned unchanged
(legacy passthrough); and input with a `:` whose IV part does not hex-decode
to 16 bytes yields `none` rather than an error. -/
theorem c4_decrypt_total_passthrough (C : BlockCipher) (dek adm : Option String) (sk : String)
    (hk : resolveKey dek adm = some sk) (text : String) :
    (∃ r, decrypt C dek adm text = Except.ok r)
    ∧ (text.data.contains ':' = false → decrypt C dek adm text = Except.ok (some text))
    ∧ (text.data.contains ':' = true →
        (hexDecodeChars ((splitOnChar ':' text.data).headD [])).length ≠ 16 →
        decrypt C dek adm text = Except.ok none) := by
  unfold decrypt
  rw [hk]
  refine ⟨⟨decryptWith C sk text, rfl⟩, ?_, ?_⟩
  · intro h
    unfold decryptWith
    rw [h]
    simp
  · intro h hiv
    unfold decryptWith
    rw [h]
    simp only [if_true, if_neg hiv]

/-- C4 witness: concrete legacy passthrough and concrete malformed envelope. -/
theorem c4_witness :
    decrypt revBlockCipher (some "k") none "plain-secret" = Except.ok (some "plain-secret")
    ∧ decrypt revBlockCipher (some "k") none "00:zz" = Except.ok none :=
  ⟨(c4_decrypt_total_passthrough revBlockCipher (some "k") none "k" (by decide)
      "plain-secret").2.1 (by decide),
   (c4_decrypt_total_passthrough revBlockCipher (some "k") none "k" (by decide)
      "00:zz").2.2 (by decide) (by decide)⟩

/-- C5 counterexample: the string `"A"` is malformed base64 (its length is
not a multiple of four), yet `verifySignature "A" ""` returns `true`, because
Node's lenient decoder maps both arguments to the empty byte string; so a
decode failure of one argument does not force the result `false`. -/
theorem c5_counterexample : isValidBase64 "A" = false ∧ verifySignature "A" "" = true := by
  exact ⟨by decide, by decide⟩

/-- C5 (amended): `verifySignature` never throws, and its result is exactly
the equality of the two leniently base64-decoded byte strings: a length
mismatch between the decoded byte strings yields `false`, and two
equal-length decodings compare by byte equality — but malformed base64 is
decoded leniently (non-alphabet characters ignored, leftover bits dropped)
rather than rejected. -/
theorem c5_verify_eq_decode (a b : String) :
    verifySignature a b = decide (base64DecodeNode a = base64DecodeNode b) := by
  unfold verifySignature timingSafeEqual
  by_cases h : (base64DecodeNode a).length = (base64DecodeNode b).length
  · rw [if_pos h]
  · rw [if_neg h]
    have hne : base64DecodeNode a ≠ base64DecodeNode b := fun he => h (by rw [he])
    simp [hne]

/-- C6: `encryptWith` produces the envelope `hexIV ++ ":" ++ hexCiphertext`;
two calls on the same plaintext and key whose 16-byte IVs differ produce
different envelopes, and both envelopes decrypt back to the plaintext. -/
theorem c6_iv_freshness (C : BlockCipher) (masterKey : String) (iv1 iv2 : List Nat) (x : String)
    (h1 : iv1.length = 16) (h1b : ∀ v ∈ iv1, v < 256)
    (h2 : iv2.length = 16) (h2b : ∀ v ∈ iv2, v < 256)
    (hne : iv1 ≠ iv2) :
    (∃ ct : List Nat, encryptWith C masterKey iv1 x = hexEncode iv1 ++ ":" ++ hexEncode ct)
    ∧ encryptWith C masterKey iv1 x ≠ encryptWith C masterKey iv2 x
    ∧ decryptWith C masterKey (encryptWith C masterKey iv1 x) = some x
    ∧ decryptWith C masterKey (encryptWith C masterKey iv2 x) = some x :=
  ⟨⟨_, rfl⟩, encryptWith_iv_inj C masterKey iv1 iv2 h1b h2b x x hne,
    decryptWith_encryptWith C masterKey iv1 h1 h1b x,
    decryptWith_encryptWith C masterKey iv2 h2 h2b x⟩

/-- C6 witness: two concrete distinct IVs on the same plaintext and key. -/
theorem c6_witness :
    (∃ ct : List Nat, encryptWith revBlockCipher "master" (List.replicate 16 0) "pw"
        = hexEncode (List.replicate 16 0) ++ ":" ++ hexEncode ct)
    ∧ encryptWith revBlockCipher "master" (List.replicate 16 0) "pw"
        ≠ encryptWith revBlockCipher "master" (1 :: List.replicate 15 0) "pw"
    ∧ decryptWith revBlockCipher "master"
        (encryptWith revBlockCipher "master" (List.replicate 16 0) "pw") = some "pw"
    ∧ decryptWith revBlockCipher "master"
        (encryptWith revBlockCipher "master" (1 :: List.replicate 15 0) "pw") = some "pw" :=
  c6_iv_freshness revBlockCipher "master" (List.replicate 16 0) (1 :: List.replicate 15 0) "pw"
    (by decide) (by decide) (by decide) (by decide) (by decide)

/-- C7: when no master key is configured (`DATA_ENCRYPTION_KEY` and
`ADMIN_TOKEN` both absent or empty), both `encrypt` and `decrypt` raise the
configuration error, and neither ever surfaces the missing key as a
recoverable `Except.ok` result (`false`/`null`-style). -/
theorem c7_missing_key_fatal (C : BlockCipher) (dek adm : Option String)
    (hk : resolveKey dek adm = none) (iv : List Nat) (text ctext : String) :
    encrypt C dek adm iv text = Except.error "DATA_ENCRYPTION_KEY not configured"
    ∧ decrypt C dek adm ctext = Except.error "DATA_ENCRYPTION_KEY not configured"
    ∧ (∀ r, encrypt C dek adm iv text ≠ Except.ok r)
    ∧ (∀ r, decrypt C dek adm ctext ≠ Except.ok r) := by
  unfold encrypt decrypt
  rw [hk]
  exact ⟨rfl, rfl, fun r h => Except.noConfusion h, fun r h => Except.noConfusion h⟩

/-- C7 witness: with both environment variables empty the error is raised
for concrete inputs. -/
theorem c7_witness :
    encrypt revBlockCipher (some "") (some "") (List.replicate 16 0) "x"
      = Except.error "DATA_ENCRYPTION_KEY not configured"
    ∧ decrypt revBlockCipher (some "") (some "") "aa:bb"
      = Except.error "DATA_ENCRYPTION_KEY not configured" :=
  ⟨(c7_missing_key_fatal revBlockCipher (some "") (some "") (by decide)
      (List.replicate 16 0) "x" "aa:bb").1,
   (c7_missing_key_fatal revBlockCipher (some "") (some "") (by decide)
      (List.replicate 16 0) "x" "aa:bb").2.1⟩

/-! ### Concrete rows and requests used to instantiate the admin claims -/

def sysRowBadPw : ProjectRow :=
  { project_id := "analytics-system", project_name := "System", db_host := "localhost",
    db_port := 5432, db_name := "analytics", db_user := "postgres",
    db_password_encrypted := some "00:zz", tablePrefix := "analytics_", is_active := true }

def tenantRow : ProjectRow :=
  { project_id := "tenant-a", project_name := "Tenant A", db_host := "db-a",
    db_port := 5432, db_name := "tenant_a", db_user := "usera",
    db_password_encrypted := some "stored-cipher", tablePrefix := "analytics_",
    is_active := true }

def reqEmptyPw : UpdateReq :=
  { project_name := "Renamed", db_host := "db-new", db_port := 5433, db_name := "d1",
    db_user := "u1", db_password := some "", tablePrefix := "t_", is_active := false }

def reqWithPw : UpdateReq :=
  { project_name := "Renamed", db_host := "db-new", db_port := 5433, db_name := "d1",
    db_user := "u1", db_password := some "newpw", tablePrefix := "t_", is_active := false }

def c10Row : ProjectRow :=
  { project_id := "tenant-c", project_name := "Tenant C", db_host := "db-c",
    db_port := 5432, db_name := "tenant_c", db_user := "userc",
    db_password_encrypted :=
      some (encryptWith revBlockCipher "master" (List.replicate 16 0) "pw"),
    tablePrefix := "analytics_", is_active := true }

/-- C8 counterexample: in the init handler, the environment fallback is also
substituted when the stored encrypted password is present (not absent) but
fails decryption: for the `analytics-system` row whose stored password is the
undecryptable envelope `"00:zz"`, the resolved password is the environment
secret even though the stored value is not absent. -/
theorem c8_counterexample :
    sysRowBadPw.db_password_encrypted ≠ none
    ∧ resolveInitPassword revBlockCipher (some "k") none sysRowBadPw (some "env-secret")
        = Except.ok (some "env-secret") :=
  ⟨by decide, by decide⟩

/-- C8 (amended): in the test and health handlers the environment password is
substituted exactly when the stored password is falsy and the project is
`analytics-system`, and for any other tenant the environment value is never
consulted; in the init handler the fallback condition is instead that the
*decrypted* password is falsy, so a present-but-undecryptable stored
password also triggers the fallback for `analytics-system`. -/
theorem c8_fallback_policy (C : BlockCipher) (sk : String) (hsk : sk ≠ "")
    (row : ProjectRow) (envPw : Option String) :
    (row.project_id ≠ "analytics-system" →
        resolveTestPassword row envPw = truthy row.db_password_encrypted
        ∧ resolveHealthPassword row envPw = truthy row.db_password_encrypted
        ∧ resolveInitPassword C (some sk) none row envPw
            = resolveInitPassword C (some sk) none row none)
    ∧ (jsFalsy row.db_password_encrypted = true → row.project_id = "analytics-system" →
        resolveTestPassword row envPw = truthy envPw
        ∧ resolveHealthPassword row envPw = truthy envPw)
    ∧ (jsFalsy row.db_password_encrypted = false →
        resolveTestPassword row envPw = truthy row.db_password_encrypted
        ∧ resolveHealthPassword row envPw = truthy row.db_password_encrypted)
    ∧ (∀ s, row.project_id = "analytics-system" →
        truthy row.db_password_encrypted = some s →
        decryptWith C sk s = none →
        resolveInitPassword C (some sk) none row envPw = Except.ok (truthy envPw)) := by
  refine ⟨?_, ?_, ?_, ?_⟩
  · intro hne
    have hbe : (row.project_id == "analytics-system") = false := by
      simpa using hne
    refine ⟨?_, ?_, ?_⟩
    · simp [resolveTestPassword, hbe]
    · simp [resolveHealthPassword, hbe]
    · unfold resolveInitPassword
      cases truthy row.db_password_encrypted with
      | none => simp [hbe]
      | some s => simp [hbe]
  · intro hf hsys
    have hbe : (row.project_id == "analytics-system") = true := by
      simp [hsys]
    constructor
    · simp [resolveTestPassword, hbe, hf]
    · simp [resolveHealthPassword, hbe, hf]
  · intro hf
    constructor
    · simp [resolveTestPassword, hf]
    · simp [resolveHealthPassword, hf]
  · intro s hsys hstored hdec
    have hbe : (row.project_id == "analytics-system") = true := by
      simp [hsys]
    unfold resolveInitPassword
    rw [hstored]
    unfold decrypt
    rw [resolveKey_some_left sk hsk none]
    simp [hdec, hbe, jsFalsy, Except.map]

/-- C8 witness: for a non-`analytics-system` tenant the three resolvers are
independent of the environment password. -/
theorem c8_witness :
    resolveTestPassword tenantRow (some "env-secret") = truthy tenantRow.db_password_encrypted
    ∧ resolveHealthPassword tenantRow (some "env-secret")
        = truthy tenantRow.db_password_encrypted
    ∧ resolveInitPassword revBlockCipher (some "k") none tenantRow (some "env-secret")
        = resolveInitPassword revBlockCipher (some "k") none tenantRow none :=
  (c8_fallback_policy revBlockCipher "k" (by decide) tenantRow (some "env-secret")).1
    (by decide)

/-- C9 counterexample: a request that supplies `db_password` as the empty
string leaves `db_password_encrypted` at its stored value instead of
replacing it with the encryption of the supplied password: the update of
`tenantRow` by `reqEmptyPw` keeps the old `"stored-cipher"` value. -/
theorem c9_counterexample :
    reqEmptyPw.db_password = some ""
    ∧ updateProject revBlockCipher (some "k") none (List.replicate 16 0) tenantRow reqEmptyPw
        = Except.ok
          { tenantRow with
            project_name := "Renamed", db_host := "db-new", db_port := 5433, db_name := "d1",
            db_user := "u1", tablePrefix := "t_", is_active := false }
    ∧ (updateProject revBlockCipher (some "k") none (List.replicate 16 0) tenantRow
          reqEmptyPw).map ProjectRow.db_password_encrypted
        ≠ Except.ok (some (encryptWith revBlockCipher "k" (List.replicate 16 0) "")) :=
  ⟨by decide, by decide, by decide⟩

/-- C9 (amended): in the update handler, when the supplied `db_password` is
absent or empty (falsy), the seven non-password columns are updated while
`db_password_encrypted` and `project_id` are left unchanged; when a
non-empty `db_password` is supplied (and a master key is configured),
`db_password_encrypted` is additionally replaced by its encryption. -/
theorem c9_update_frame (C : BlockCipher) (dek adm : Option String) (iv : List Nat)
    (row : ProjectRow) (req : UpdateReq) :
    (truthy req.db_password = none →
        updateProject C dek adm iv row req = Except.ok
          { row with
            project_name := req.project_name, db_host := req.db_host, db_port := req.db_port,
            db_name := req.db_name, db_user := req.db_user,
            tablePrefix := req.tablePrefix, is_active := req.is_active })
    ∧ (∀ p sk, truthy req.db_password = some p → resolveKey dek adm = some sk →
        updateProject C dek adm iv row req = Except.ok
          { row with
            project_name := req.project_name, db_host := req.db_host, db_port := req.db_port,
            db_name := req.db_name, db_user := req.db_user,
            db_password_encrypted := some (encryptWith C sk iv p),
            tablePrefix := req.tablePrefix, is_active := req.is_active }) := by
  constructor
  · intro h
    unfold updateProject
    rw [h]
  · intro p sk hp hk
    unfold updateProject
    rw [hp]
    unfold encrypt
    rw [hk]
    rfl

/-- C9 witness: a concrete update without a password keeps the stored
ciphertext; a concrete update with a non-empty password replaces it. -/
theorem c9_witness :
    updateProject revBlockCipher (some "k") none (List.replicate 16 0) tenantRow reqWithPw
      = Except.ok
        { tenantRow with
          project_name := "Renamed", db_host := "db-new", db_port := 5433, db_name := "d1",
          db_user := "u1",
          db_password_encrypted :=
            some (encryptWith revBlockCipher "k" (List.replicate 16 0) "newpw"),
          tablePrefix := "t_", is_active := false } :=
  (c9_update_frame revBlockCipher (some "k") none (List.replicate 16 0) tenantRow
    reqWithPw).2 "newpw" "k" (by decide) (by decide)

/-- C10: for a tenant other than `analytics-system` whose stored password is
an encryption envelope, the test and health handlers use the stored
ciphertext envelope verbatim as the connection password (no decryption),
while the init handler decrypts it and uses the plaintext; and the envelope
is never equal to the plaintext. -/
theorem c10_stored_password_use (C : BlockCipher) (sk : String) (hsk : sk ≠ "")
    (iv : List Nat) (hiv : iv.length = 16) (hlt : ∀ v ∈ iv, v < 256)
    (x : String) (hx : x ≠ "") (row : ProjectRow) (envPw : Option String)
    (hrow : row.db_password_encrypted = some (encryptWith C sk iv x))
    (hsys : row.project_id ≠ "analytics-system") :
    resolveTestPassword row envPw = some (encryptWith C sk iv x)
    ∧ resolveHealthPassword row envPw = some (encryptWith C sk iv x)
    ∧ resolveInitPassword C (some sk) none row envPw = Except.ok (some x)
    ∧ encryptWith C sk iv x ≠ x := by
  have henv : encryptWith C sk iv x ≠ "" := encryptWith_ne_empty C sk iv hiv x
  have hbe : (row.project_id == "analytics-system") = false := by
    simpa using hsys
  have hfalsy : jsFalsy row.db_password_encrypted = false := by
    rw [hrow]
    simpa [jsFalsy] using henv
  have htr : truthy row.db_password_encrypted = some (encryptWith C sk iv x) := by
    rw [hrow]
    simp [truthy, henv]
  refine ⟨?_, ?_, ?_, encryptWith_ne_plain C sk iv hiv x⟩
  · rw [resolveTestPassword, hfalsy]
    simp only [Bool.false_and, if_false]
    exact htr
  · rw [resolveHealthPassword, hfalsy]
    simp only [Bool.false_and, if_false]
    exact htr
  · unfold resolveInitPassword
    rw [htr]
    unfold decrypt
    rw [resolveKey_some_left sk hsk none]
    simp only [decryptWith_encryptWith C sk iv hiv hlt x, Except.map]
    simp [jsFalsy, hx, hbe, truthy]

/-- C10 witness: the concrete tenant row whose stored password is a concrete
envelope. -/
theorem c10_witness :
    resolveTestPassword c10Row (some "env")
      = some (encryptWith revBlockCipher "master" (List.replicate 16 0) "pw")
    ∧ resolveHealthPassword c10Row (some "env")
      = some (encryptWith revBlockCipher "master" (List.replicate 16 0) "pw")
    ∧ resolveInitPassword revBlockCipher (some "master") none c10Row (some "env")
      = Except.ok (some "pw")
    ∧ encryptWith revBlockCipher "master" (List.replicate 16 0) "pw" ≠ "pw" :=
  c10_stored_password_use revBlockCipher "master" (by decide) (List.replicate 16 0)
    (by decide) (by decide) "pw" (by decide) c10Row (some "env") rfl (by decide)

end AnalyticsHub

